import Mathlib

/-!
Verification of the VoiceVault ingestion-and-indexing pipeline against its
specification.  The repository ships the React frontend (`frontend/src`) and
the SQL schemas (`schema.sql`); the Flask backend (`backend/main.py`,
`backend/api_routes.py`, `backend/db_queries.py`) is referenced by the README
but its source is not present, so the pipeline components (Chunker,
RetrievalEngine, PipelineOrchestrator, MediaIngestor, integrity reads) are
modelled from the specification, while the relational layer follows the
`audio_posts` / `archive_files` / `rag_chunks` / `audit_log` schema verbatim.
Timestamps are SQL DOUBLE PRECISION seconds; the pipeline only compares,
adds and subtracts them (never divides), so they are embedded as exact
integer seconds (ℤ).  Byte strings are lists of naturals, and every
definition is executable.
-/

namespace VoiceVault

/-- A timestamped transcript segment as produced by the Transcriber:
`(start_sec, end_sec, text, confidence)`. -/
structure Segment where
  start_sec : ℤ
  end_sec : ℤ
  text : String
  confidence : Option ℚ
  deriving DecidableEq, Repr

/-- A retrieval-sized chunk: `start_sec` of its first segment, `end_sec` of its
last segment, text joined with single spaces. -/
structure Chunk where
  start_sec : ℤ
  end_sec : ℤ
  text : String
  deriving DecidableEq, Repr

/-- Chunker configuration: the two independent caps and the minimum duration
floor for the sentence-boundary close. -/
structure ChunkConfig where
  maxDurSec : ℤ
  maxChars : Nat
  minDurSec : ℤ
  deriving DecidableEq, Repr

def dfltSeg : Segment := ⟨0, 0, "", none⟩

/-- A segment is dropped when its text is fully empty or whitespace-only. -/
def isBlank (s : String) : Bool := s.data.all (fun ch => ch.isWhitespace)

/-- Concatenation with single-space separators. -/
def joinSp : List String → String
  | [] => ""
  | [t] => t
  | t :: ts => t ++ " " ++ joinSp ts

def chunkStart (g : List Segment) : ℤ := (g.headD dfltSeg).start_sec

def chunkEnd (g : List Segment) : ℤ := (g.getLastD dfltSeg).end_sec

def chunkDur (g : List Segment) : ℤ := chunkEnd g - chunkStart g

def groupText (g : List Segment) : String := joinSp (g.map Segment.text)

/-- Sentence-boundary heuristic: the group's last text ends in terminal
punctuation. -/
def endsTerminal (t : String) : Bool :=
  ['.', '!', '?'].contains (t.data.getLastD ' ')

/-- Modelled from the spec (4.3), backend chunker not in src/: appending `s`
to the open group `cur` would exceed the duration cap or the character cap. -/
def wouldExceed (cfg : ChunkConfig) (cur : List Segment) (s : Segment) : Bool :=
  decide (cfg.maxDurSec < s.end_sec - chunkStart cur) ||
  decide (cfg.maxChars < (groupText (cur ++ [s])).length)

/-- Modelled from the spec (4.3): close the open group at a sentence boundary
once it meets the minimum duration floor. -/
def closeAfter (cfg : ChunkConfig) (g : List Segment) : Bool :=
  endsTerminal (g.getLastD dfltSeg).text && decide (cfg.minDurSec ≤ chunkDur g)

/-- Modelled from the spec (4.3), backend chunker not in src/: greedily
accumulate consecutive segments into the current group; close the group and
start a new one when appending the next segment would exceed either cap, or at
a sentence boundary once past the minimum duration floor.  A single segment
exceeding the caps still becomes its own group (caps are soft). -/
def chunkerGo (cfg : ChunkConfig) : List Segment → List Segment → List (List Segment)
  | cur, [] => if cur.isEmpty then [] else [cur]
  | cur, s :: rest =>
    if cur.isEmpty then
      if closeAfter cfg [s] then [s] :: chunkerGo cfg [] rest
      else chunkerGo cfg [s] rest
    else if wouldExceed cfg cur s then
      if closeAfter cfg [s] then cur :: [s] :: chunkerGo cfg [] rest
      else cur :: chunkerGo cfg [s] rest
    else if closeAfter cfg (cur ++ [s]) then
      (cur ++ [s]) :: chunkerGo cfg [] rest
    else chunkerGo cfg (cur ++ [s]) rest

/-- The segment groups underlying the chunk list: blank segments are dropped,
the rest are grouped greedily. -/
def chunkerGroups (cfg : ChunkConfig) (segs : List Segment) : List (List Segment) :=
  chunkerGo cfg [] (segs.filter (fun s => !(isBlank s.text)))

def mkChunk (g : List Segment) : Chunk :=
  { start_sec := chunkStart g, end_sec := chunkEnd g, text := groupText g }

/-- Modelled from the spec (4.3): the Chunker component. -/
def chunker (cfg : ChunkConfig) (segs : List Segment) : List Chunk :=
  (chunkerGroups cfg segs).map mkChunk

/-- The non-dropped segments. -/
def keepSegs (segs : List Segment) : List Segment :=
  segs.filter (fun s => !(isBlank s.text))

/-- Transcriber output ordering: segments are ordered and non-overlapping. -/
def segR (a b : Segment) : Prop := a.end_sec ≤ b.start_sec

/-- Chunk-level ordering: adjacent chunks do not overlap. -/
def chunkR (c d : Chunk) : Prop := c.end_sec ≤ d.start_sec

instance : DecidableRel segR :=
  fun a b => inferInstanceAs (Decidable (a.end_sec ≤ b.start_sec))

instance : DecidableRel chunkR :=
  fun c d => inferInstanceAs (Decidable (c.end_sec ≤ d.start_sec))

/-- Row of `audio_posts` (part_011): identifier, owner, title, visibility,
processing status, language, creation time (epoch seconds). -/
structure AudioPost where
  post_id : Nat
  user_id : Nat
  title : String
  description : String
  visibility : String
  status : String
  language : String
  created_at : Nat
  deriving DecidableEq, Repr

/-- Row of `archive_files` (part_011), the integrity ledger; the SHA-256
digest is embedded as a byte list. -/
structure ArchiveFileRow where
  file_id : Nat
  post_id : Nat
  role : String
  path : String
  content_type : String
  size_bytes : Nat
  sha256 : List Nat
  deriving DecidableEq, Repr

/-- Row of `archive_metadata` (part_011): one JSON text record per post. -/
structure MetadataRow where
  post_id : Nat
  metadata : String
  deriving DecidableEq, Repr

/-- Row of `archive_rights` (part_011). -/
structure RightsRow where
  post_id : Nat
  has_speaker_consent : Bool
  license : Option String
  deriving DecidableEq, Repr

/-- Row of `rag_chunks` (part_011); embedding coordinates are embedded as
exact integers (the JSON-text column holds decimal numbers; no claim depends
on their arithmetic). -/
structure RagChunkRow where
  chunk_id : Nat
  post_id : Nat
  start_sec : ℤ
  end_sec : ℤ
  text : String
  confidence : Option ℚ
  embedding : Option (List ℤ)
  created_at : Nat
  deriving DecidableEq, Repr

/-- Row of `audit_log` (part_011): post/user references are nullable. -/
structure AuditRow where
  log_id : Nat
  post_id : Option Nat
  user_id : Option Nat
  action : String
  details : String
  deriving DecidableEq, Repr

/-- The relational state: the tables of part_011 that the claims touch. -/
structure VaultDB where
  audio_posts : List AudioPost
  archive_files : List ArchiveFileRow
  archive_metadata : List MetadataRow
  archive_rights : List RightsRow
  rag_chunks : List RagChunkRow
  audit_log : List AuditRow
  deriving DecidableEq, Repr

/-- DELETE FROM audio_posts WHERE post_id = pid, with the referential actions
declared in part_011: ON DELETE CASCADE for archive_files
(fk_archive_files_post), archive_metadata, archive_rights and rag_chunks
(fk_rag_chunks_post); ON DELETE SET NULL for audit_log (fk_audit_post). -/
def deletePost (db : VaultDB) (pid : Nat) : VaultDB :=
  { audio_posts := db.audio_posts.filter (fun p => !(p.post_id == pid)),
    archive_files := db.archive_files.filter (fun f => !(f.post_id == pid)),
    archive_metadata := db.archive_metadata.filter (fun m => !(m.post_id == pid)),
    archive_rights := db.archive_rights.filter (fun r => !(r.post_id == pid)),
    rag_chunks := db.rag_chunks.filter (fun c => !(c.post_id == pid)),
    audit_log := db.audit_log.map (fun a =>
      if a.post_id = some pid then { a with post_id := none } else a) }

def postExists (db : VaultDB) (pid : Nat) : Prop :=
  ∃ p ∈ db.audio_posts, p.post_id = pid

instance (db : VaultDB) (pid : Nat) : Decidable (postExists db pid) :=
  List.decidableBEx _ db.audio_posts

/-- A nullable audit reference either is NULL or points at an existing post. -/
def auditRefOk (db : VaultDB) (a : AuditRow) : Prop :=
  ∀ q, a.post_id = some q → postExists db q

instance (db : VaultDB) (a : AuditRow) : Decidable (auditRefOk db a) :=
  match h : a.post_id with
  | none => isTrue (fun q hq => by rw [h] at hq; cases hq)
  | some q =>
    decidable_of_iff (postExists db q)
      (Iff.intro
        (fun hp q' hq' => by rw [h] at hq'; cases hq'; exact hp)
        (fun hall => hall q h))

/-- Referential integrity: no chunk, file, metadata or rights row references
a missing post, and audit references are NULL or valid. -/
def noOrphans (db : VaultDB) : Prop :=
  (∀ f ∈ db.archive_files, postExists db f.post_id) ∧
  (∀ m ∈ db.archive_metadata, postExists db m.post_id) ∧
  (∀ r ∈ db.archive_rights, postExists db r.post_id) ∧
  (∀ c ∈ db.rag_chunks, postExists db c.post_id) ∧
  (∀ a ∈ db.audit_log, auditRefOk db a)

instance (db : VaultDB) : Decidable (noOrphans db) :=
  inferInstanceAs (Decidable (_ ∧ _ ∧ _ ∧ _ ∧ _))

/-- The closed role enum of chk_archive_role (part_011). -/
def allowedRoles : List String :=
  ["original_audio", "normalized_audio", "transcript_json", "transcript_txt",
   "metadata", "rights", "manifest", "bundle"]

/-- No two ledger rows share a (post, role) pair (uq_archive_post_role). -/
def uqPR (a b : ArchiveFileRow) : Prop :=
  ¬(a.post_id = b.post_id ∧ a.role = b.role)

instance : DecidableRel uqPR :=
  fun a b => inferInstanceAs (Decidable (¬(a.post_id = b.post_id ∧ a.role = b.role)))

/-- The archive_files invariant: at most one row per (post, role), every role
in the closed enum. -/
def wfArchive (db : VaultDB) : Prop :=
  db.archive_files.Pairwise uqPR ∧ ∀ g ∈ db.archive_files, g.role ∈ allowedRoles

instance (db : VaultDB) : Decidable (wfArchive db) :=
  inferInstanceAs (Decidable (_ ∧ _))

inductive SqlErr
  | checkViolation
  | uniqueViolation
  | fkViolation
  deriving DecidableEq, Repr

/-- INSERT INTO archive_files honouring the constraints declared in part_011:
chk_archive_role, uq_archive_post_role, uq_archive_post_path and
fk_archive_files_post. -/
def insertArchiveFile (db : VaultDB) (f : ArchiveFileRow) : Except SqlErr VaultDB :=
  if !(allowedRoles.contains f.role) then .error .checkViolation
  else if db.archive_files.any (fun g => g.post_id == f.post_id && g.role == f.role) then
    .error .uniqueViolation
  else if db.archive_files.any (fun g => g.post_id == f.post_id && g.path == f.path) then
    .error .uniqueViolation
  else if !(db.audio_posts.any (fun p => p.post_id == f.post_id)) then
    .error .fkViolation
  else .ok { db with archive_files := db.archive_files ++ [f] }

inductive PostStatus
  | uploaded
  | processing
  | ready
  | failed
  deriving DecidableEq, Repr, Fintype

/-- The orchestration events that can touch a post's status: the explicit
reprocess request is the only re-entry from failed (spec 4.7). -/
inductive OrchEvent
  | beginRun
  | stageSucceeded
  | stageFailed
  | reprocessRequest
  deriving DecidableEq, Repr, Fintype

/-- Modelled from the spec (4.7), backend orchestrator not in src/: the only
status transitions PipelineOrchestrator performs; any other (state, event)
pair leaves the status unchanged. -/
def orchStep : PostStatus → OrchEvent → PostStatus
  | .uploaded, .beginRun => .processing
  | .processing, .stageSucceeded => .ready
  | .processing, .stageFailed => .failed
  | .failed, .reprocessRequest => .processing
  | s, _ => s

/-- The status strings admitted by chk_audio_status (part_011). -/
def chkAudioStatus : List String := ["uploaded", "processing", "ready", "failed"]

def statusToString : PostStatus → String
  | .uploaded => "uploaded"
  | .processing => "processing"
  | .ready => "ready"
  | .failed => "failed"

/-- The MIME allow-list of handleFileSelect (frontend CreatePost,
src/unnamed/part_003 lines 20-21). -/
def validTypes : List String :=
  ["audio/mpeg", "audio/wav", "audio/ogg", "audio/flac", "audio/mp4", "video/mp4"]

/-- The extension alternatives of the handleFileSelect regex
(mp3|wav|ogg|flac|m4a|mp4|mov|mkv|webm). -/
def allowedExts : List String :=
  ["mp3", "wav", "ogg", "flac", "m4a", "mp4", "mov", "mkv", "webm"]

def lowerChars (s : String) : List Char := s.data.map Char.toLower

/-- The case-insensitive extension test of handleFileSelect: the regex
matches a literal dot followed by one of the alternatives, anchored at the
end of the file name. -/
def extMatches (name : String) : Bool :=
  allowedExts.any (fun e => List.isSuffixOf ("." ++ e).data (lowerChars name))

/-- handleFileSelect acceptance (src/unnamed/part_003 line 21): a file passes
when its MIME type is in validTypes or its name matches the extension regex;
otherwise the upload is rejected client-side before any request is sent. -/
def fileSelectAccepts (mime name : String) : Bool :=
  validTypes.contains mime || extMatches name

inductive IngestError
  | unsupportedMediaType
  | notFound
  | integrityMismatch
  | storageWriteFailure
  deriving DecidableEq, Repr

/-- The blob store: key to bytes, newest binding first. -/
def BlobStore : Type := List (String × List Nat)

def blobPut (store : BlobStore) (key : String) (bytes : List Nat) : BlobStore :=
  (key, bytes) :: store

def blobGet (store : BlobStore) (key : String) : Option (List Nat) :=
  ((store.find? (fun kv => kv.fst == key)).map Prod.snd : Option (List Nat))

/-- Modelled from the spec (glossary, 4.1): the SHA-256 content digest,
idealised as an injective fingerprint of the bytes (collision-freeness is
what the design assumes of SHA-256). -/
def digestBytes (bs : List Nat) : List Nat := bs.length :: bs

/-- An upload request as submitted by the frontend form (part_003). -/
structure UploadReq where
  user_id : Nat
  title : String
  description : String
  visibility : String
  language : String
  filename : String
  mime : String
  bytes : List Nat
  deriving DecidableEq, Repr

/-- Modelled from the spec (4.1), backend upload route not in src/:
MediaIngestor validates the media type first and rejects unsupported uploads
with UnsupportedMediaType before any storage write; on acceptance it creates
the Post row (status uploaded) and the original_audio ledger row in one
transaction and writes the blob.  The returned state is unchanged on
rejection. -/
def ingestUpload (db : VaultDB) (store : BlobStore) (newPid : Nat) (path : String)
    (req : UploadReq) : Except IngestError Nat × VaultDB × BlobStore :=
  if !(fileSelectAccepts req.mime req.filename) then
    (.error .unsupportedMediaType, db, store)
  else
    let post : AudioPost :=
      ⟨newPid, req.user_id, req.title, req.description, req.visibility,
       "uploaded", req.language, 0⟩
    let frow : ArchiveFileRow :=
      ⟨0, newPid, "original_audio", path, req.mime, req.bytes.length,
       digestBytes req.bytes⟩
    (.ok newPid,
     { db with
        audio_posts := db.audio_posts ++ [post],
        archive_files := db.archive_files ++ [frow] },
     blobPut store path req.bytes)

/-- Modelled from the spec (4.5, 7): integrity-verified read of an archived
file: recompute the digest of the stored bytes and compare with the ledger;
a disagreement surfaces IntegrityMismatch to the caller, and the read never
writes (it returns a value only, so nothing is auto-repaired). -/
def integrityRead (db : VaultDB) (store : BlobStore) (pid : Nat) (role : String) :
    Except IngestError (List Nat) :=
  match db.archive_files.find? (fun f => f.post_id == pid && f.role == role) with
  | none => .error .notFound
  | some f =>
    match blobGet store f.path with
    | none => .error .notFound
    | some bs =>
      if digestBytes bs == f.sha256 then .ok bs else .error .integrityMismatch

/-- A ranked search result: the matched chunk with its owning post and a
relevance score. -/
structure SearchResult where
  chunk : RagChunkRow
  post : AudioPost
  score : ℤ
  deriving DecidableEq, Repr

def insLe {α : Type} (le : α → α → Bool) (x : α) : List α → List α
  | [] => [x]
  | y :: ys => if le x y then x :: y :: ys else y :: insLe le x ys

/-- Insertion sort by a boolean comparison (stable, executable). -/
def sortLe {α : Type} (le : α → α → Bool) : List α → List α
  | [] => []
  | x :: xs => insLe le x (sortLe le xs)

/-- The user's candidate set: chunks joined to an owning post of that user
(rag_chunks INNER JOIN audio_posts ON post_id, filtered by user_id). -/
def userCandidates (db : VaultDB) (uid : Nat) : List SearchResult :=
  db.rag_chunks.filterMap (fun c =>
    match db.audio_posts.find? (fun p => p.post_id == c.post_id && p.user_id == uid) with
    | some p => some ⟨c, p, 0⟩
    | none => none)

def isPrefixChars : List Char → List Char → Bool
  | [], _ => true
  | _ :: _, [] => false
  | a :: as, b :: bs => a == b && isPrefixChars as bs

def isSubChars (w : List Char) : List Char → Bool
  | [] => w.isEmpty
  | c :: ts => isPrefixChars w (c :: ts) || isSubChars w ts

def wordsAux : List Char → List Char → List (List Char)
  | cur, [] => if cur.isEmpty then [] else [cur.reverse]
  | cur, ch :: rest =>
    if ch.isWhitespace then
      if cur.isEmpty then wordsAux [] rest else cur.reverse :: wordsAux [] rest
    else wordsAux (ch :: cur) rest

/-- The lowercased keywords of a free-text query. -/
def queryWords (q : String) : List (List Char) := wordsAux [] (lowerChars q)

/-- Lexical relevance: how many query keywords occur as substrings of the
chunk text (case-insensitive). -/
def lexMatchCount (q t : String) : Nat :=
  ((queryWords q).filter (fun w => isSubChars w (lowerChars t))).length

/-- Rank by match count descending, then recency (most recent post first). -/
def lexLe (a b : SearchResult) : Bool :=
  decide (b.score < a.score) ||
  (decide (a.score = b.score) && decide (b.post.created_at ≤ a.post.created_at))

def vecLe (a b : SearchResult) : Bool := decide (b.score ≤ a.score)

def dotZ (a b : List ℤ) : ℤ := (List.zipWith (fun x y => x * y) a b).sum

/-- Modelled from the spec (4.6): the lexical fallback tier: keep candidates
with at least one keyword match, score by match count, rank by count then
recency. -/
def lexRank (q : String) (cands : List SearchResult) : List SearchResult :=
  sortLe lexLe (cands.filterMap (fun r =>
    if 0 < lexMatchCount q r.chunk.text then
      some { r with score := (lexMatchCount q r.chunk.text : ℤ) }
    else none))

/-- Modelled from the spec (4.6): the vector tier: candidates that carry an
embedding, scored against the query embedding (cosine similarity is
represented by an inner-product score: no claim concerns the relative order
of vector-ranked results). -/
def vecRank (qe : List ℤ) (cands : List SearchResult) : List SearchResult :=
  sortLe vecLe (cands.filterMap (fun r =>
    r.chunk.embedding.map (fun e => { r with score := dotZ qe e })))

/-- Modelled from the spec (4.6), backend search route not in src/ (the
frontend calls it via searchRAG in api.js with q, user_id, page, limit):
candidates are scoped to the user's posts; if the query embedded and the
vector tier has candidates, use it, otherwise fall back to the lexical tier;
paginate the ranked list, returning an empty page past the end. -/
def ragSearch (db : VaultDB) (uid : Nat) (q : String) (qe : Option (List ℤ))
    (page limit : Nat) : List SearchResult :=
  let cands := userCandidates db uid
  let ranked :=
    match qe with
    | some v =>
      let vr := vecRank v cands
      if vr.isEmpty then lexRank q cands else vr
    | none => lexRank q cands
  (ranked.drop ((page - 1) * limit)).take limit

/-- Chunk rows written for one pipeline run; serial row ids are immaterial to
every claim, so the allocator just counts from the given id. -/
def mkRows (pid : Nat) : Nat → List (Chunk × Option (List ℤ)) → List RagChunkRow
  | _, [] => []
  | n, (c, e) :: rest =>
    ⟨n, pid, c.start_sec, c.end_sec, c.text, none, e, 0⟩ :: mkRows pid (n + 1) rest

/-- Modelled from the spec (4.4): per-chunk embedding; a failure
(EmbeddingUnavailable) downgrades only that chunk, persisted without an
embedding. -/
def embedStage (embedder : String → Except Unit (List ℤ)) (cs : List Chunk) :
    List (Chunk × Option (List ℤ)) :=
  cs.map (fun c => (c, (embedder c.text).toOption))

/-- Modelled from the spec (3, 4.5, 4.7), backend orchestrator not in src/:
successful completion of a pipeline run after transcription: the post's
chunks are replaced wholesale, all chunks persisted (with or without
embeddings), and the status advanced to ready. -/
def storeRun (db : VaultDB) (pid : Nat) (scs : List (Chunk × Option (List ℤ))) :
    VaultDB :=
  { db with
    rag_chunks := db.rag_chunks.filter (fun c => !(c.post_id == pid)) ++ mkRows pid 0 scs,
    audio_posts := db.audio_posts.map (fun p =>
      if p.post_id == pid then { p with status := "ready" } else p) }

def chunksOf (db : VaultDB) (pid : Nat) : List RagChunkRow :=
  db.rag_chunks.filter (fun c => c.post_id == pid)

def rowR (a b : RagChunkRow) : Prop := a.end_sec ≤ b.start_sec

instance : DecidableRel rowR :=
  fun a b => inferInstanceAs (Decidable (a.end_sec ≤ b.start_sec))

/-- Per-post chunk invariant over the whole table: within every post the
chunks are non-overlapping with monotone timestamps, and every chunk has
0 ≤ start_sec < end_sec. -/
def wfChunkDB (db : VaultDB) : Prop :=
  ∀ pid ∈ db.rag_chunks.map (fun c => c.post_id),
    (chunksOf db pid).Pairwise rowR ∧
    ∀ c ∈ chunksOf db pid, 0 ≤ c.start_sec ∧ c.start_sec < c.end_sec

instance (db : VaultDB) : Decidable (wfChunkDB db) :=
  List.decidableBAll _ _

/-- Concrete post used by witnesses. -/
def postW : AudioPost := ⟨1, 7, "Grandma stories", "", "private", "ready", "en", 100⟩

def chunkRowW : RagChunkRow := ⟨0, 1, 0, 5, "hello there", none, none, 0⟩

def dbW : VaultDB := ⟨[postW], [], [], [], [chunkRowW], []⟩

def fileOrigW : ArchiveFileRow :=
  ⟨1, 1, "original_audio", "1/original_audio", "audio/mpeg", 3, digestBytes [1, 2, 3]⟩

def fileTxtW : ArchiveFileRow :=
  ⟨2, 1, "transcript_txt", "1/transcript_txt", "text/plain", 3, digestBytes [4, 5, 6]⟩

/-- Concrete database used by the deletion and insertion witnesses. -/
def dbDelW : VaultDB :=
  ⟨[⟨1, 7, "first", "", "private", "ready", "en", 0⟩,
    ⟨2, 7, "second", "", "private", "ready", "en", 0⟩],
   [fileOrigW, ⟨3, 2, "original_audio", "2/original_audio", "audio/mpeg", 1, digestBytes [9]⟩],
   [⟨1, "m"⟩],
   [⟨1, true, none⟩],
   [⟨0, 1, 0, 5, "x", none, none, 0⟩],
   [⟨0, some 1, some 7, "upload", ""⟩, ⟨1, some 2, some 7, "upload", ""⟩]⟩

def dbInsW : VaultDB := { dbDelW with archive_files := dbDelW.archive_files ++ [fileTxtW] }

def reqTxtW : UploadReq :=
  ⟨7, "notes", "", "private", "en", "notes.txt", "text/plain", [1, 2, 3]⟩

def db9W : VaultDB := ⟨[postW], [fileOrigW], [], [], [], []⟩

/-- Blob store after an out-of-band mutation of the stored original audio. -/
def store9W : BlobStore := [("1/original_audio", [9, 9, 9])]

/-- Chunker configuration used by witnesses: 30 s duration cap, 500-char cap,
5 s minimum duration floor. -/
def cfgW : ChunkConfig := ⟨30, 500, 5⟩

/-- Four ordered segments (one whitespace-only) used by the C1 witness. -/
def segsW : List Segment :=
  [⟨0, 10, "hello world.", none⟩, ⟨10, 20, "more text", none⟩,
   ⟨20, 31, "tail.", none⟩, ⟨31, 32, "   ", none⟩]

/-- Three contiguous non-blank in-cap segments (continuous speech). -/
def segsC : List Segment :=
  [⟨0, 10, "hello world.", none⟩, ⟨10, 20, "more text", none⟩,
   ⟨20, 31, "tail.", none⟩]

/-- A tight configuration: 30 s duration cap and 20-char text cap. -/
def cfgX : ChunkConfig := ⟨30, 20, 5⟩

/-- A single 40-second continuously spoken segment of 40 characters: over
both caps on its own. -/
def segX : Segment := ⟨0, 40, "one uninterrupted forty second utterance", none⟩

/-- An embedder that fails on every chunk (EmbeddingUnavailable for all). -/
def embFailW : String → Except Unit (List ℤ) := fun _ => Except.error ()

def post8W : AudioPost := ⟨1, 7, "story", "", "private", "processing", "en", 50⟩

def db8W : VaultDB := ⟨[post8W], [], [], [], [], []⟩

/-- Per-chunk cap compliance: duration within the duration cap and joined
text within the character cap. -/
def capP (cfg : ChunkConfig) (g : List Segment) : Prop :=
  chunkDur g ≤ cfg.maxDurSec ∧ (groupText g).length ≤ cfg.maxChars

/-- A single segment respects both caps on its own. -/
def capOk (cfg : ChunkConfig) (s : Segment) : Prop :=
  s.end_sec - s.start_sec ≤ cfg.maxDurSec ∧ s.text.length ≤ cfg.maxChars

instance (cfg : ChunkConfig) (s : Segment) : Decidable (capOk cfg s) :=
  inferInstanceAs (Decidable (_ ∧ _))

/-- Contiguity of a segment run: each segment ends exactly where the next
one starts (continuous speech, no silence gaps). -/
def contig : List Segment → Bool
  | [] => true
  | [_] => true
  | a :: b :: rest => (a.end_sec == b.start_sec) && contig (b :: rest)

def segDur (s : Segment) : ℤ := s.end_sec - s.start_sec

def resultW : SearchResult := ⟨chunkRowW, postW, 1⟩

lemma memHeadD {α : Type} {l : List α} (d : α) (h : l ≠ []) : l.headD d ∈ l := by
  cases l with
  | nil => exact absurd rfl h
  | cons x xs => exact List.mem_cons_self x xs

lemma memGetLastD {α : Type} {l : List α} (d : α) (h : l ≠ []) : l.getLastD d ∈ l := by
  cases l with
  | nil => exact absurd rfl h
  | cons x xs =>
    rw [List.getLastD_cons]
    exact List.getLastD_mem_cons xs x

lemma headD_append_of_ne {α : Type} {l : List α} (m : List α) (d : α) (h : l ≠ []) :
    (l ++ m).headD d = l.headD d := by
  cases l with
  | nil => exact absurd rfl h
  | cons x xs => rfl

/-- Flattening the groups gives back exactly the processed segment list. -/
lemma chunkerGo_flatten (cfg : ChunkConfig) :
    ∀ (rest cur : List Segment), (chunkerGo cfg cur rest).flatten = cur ++ rest := by
  intro rest
  induction rest with
  | nil =>
    intro cur
    by_cases h : cur.isEmpty
    · simp [chunkerGo, h, List.isEmpty_iff.mp h]
    · simp [chunkerGo, h]
  | cons s rest ih =>
    intro cur
    by_cases h : cur.isEmpty
    · have hc : cur = [] := List.isEmpty_iff.mp h
      by_cases hcl : closeAfter cfg [s]
      · simp [chunkerGo, h, hcl, ih, hc]
      · simp [chunkerGo, h, hcl, ih, hc]
    · by_cases hex : wouldExceed cfg cur s
      · by_cases hcl : closeAfter cfg [s]
        · simp [chunkerGo, h, hex, hcl, ih]
        · simp [chunkerGo, h, hex, hcl, ih]
      · by_cases hcl : closeAfter cfg (cur ++ [s])
        · simp [chunkerGo, h, hex, hcl, ih]
        · simp [chunkerGo, h, hex, hcl, ih]

/-- Every emitted group is nonempty. -/
lemma chunkerGo_ne_nil (cfg : ChunkConfig) :
    ∀ (rest cur g : List Segment), g ∈ chunkerGo cfg cur rest → g ≠ [] := by
  intro rest
  induction rest with
  | nil =>
    intro cur g hg
    by_cases h : cur.isEmpty
    · simp [chunkerGo, h] at hg
    · simp [chunkerGo, h] at hg
      subst hg
      exact fun hc => h (by simp [hc])
  | cons s rest ih =>
    intro cur g hg
    by_cases h : cur.isEmpty
    · by_cases hcl : closeAfter cfg [s]
      · rw [chunkerGo, if_pos h, if_pos hcl] at hg
        rcases List.mem_cons.mp hg with rfl | hg
        · simp
        · exact ih [] g hg
      · rw [chunkerGo, if_pos h, if_neg hcl] at hg
        exact ih [s] g hg
    · have hc : cur ≠ [] := fun hc => by simp [hc] at h
      by_cases hex : wouldExceed cfg cur s
      · by_cases hcl : closeAfter cfg [s]
        · rw [chunkerGo, if_neg h, if_pos hex, if_pos hcl] at hg
          rcases List.mem_cons.mp hg with rfl | hg
          · exact hc
          rcases List.mem_cons.mp hg with rfl | hg
          · simp
          · exact ih [] g hg
        · rw [chunkerGo, if_neg h, if_pos hex, if_neg hcl] at hg
          rcases List.mem_cons.mp hg with rfl | hg
          · exact hc
          · exact ih [s] g hg
      · by_cases hcl : closeAfter cfg (cur ++ [s])
        · rw [chunkerGo, if_neg h, if_neg hex, if_pos hcl] at hg
          rcases List.mem_cons.mp hg with rfl | hg
          · simp
          · exact ih [] g hg
        · rw [chunkerGo, if_neg h, if_neg hex, if_neg hcl] at hg
          exact ih (cur ++ [s]) g hg

/-- Cross-group and within-group orderedness of a flattened pairwise list. -/
lemma pairwise_flatten_groups {α : Type} {R : α → α → Prop} :
    ∀ (groups : List (List α)), groups.flatten.Pairwise R →
      groups.Pairwise (fun g h => ∀ x ∈ g, ∀ y ∈ h, R x y) ∧
      ∀ g ∈ groups, g.Pairwise R := by
  intro groups
  induction groups with
  | nil => intro _; exact ⟨List.Pairwise.nil, by simp⟩
  | cons g gs ih =>
    intro hpw
    rw [List.flatten_cons, List.pairwise_append] at hpw
    obtain ⟨hg, hrest, hcross⟩ := hpw
    obtain ⟨ihp, ihin⟩ := ih hrest
    refine ⟨List.Pairwise.cons ?_ ihp, ?_⟩
    · intro h hh x hx y hy
      exact hcross x hx y (List.mem_flatten.mpr ⟨h, hh, hy⟩)
    · intro g' hg'
      rcases List.mem_cons.mp hg' with rfl | hg'
      · exact hg
      · exact ihin g' hg'

/-- The chunk list inherits the segment ordering: adjacent chunks do not
overlap. -/
lemma chunker_pairwise (cfg : ChunkConfig) (segs : List Segment)
    (hord : segs.Pairwise segR) : (chunker cfg segs).Pairwise chunkR := by
  have hkeep : (keepSegs segs).Pairwise segR :=
    List.Pairwise.sublist (List.filter_sublist segs) hord
  have hflat : (chunkerGroups cfg segs).flatten.Pairwise segR := by
    unfold chunkerGroups
    rw [chunkerGo_flatten]
    simpa [keepSegs] using hkeep
  have hcross := (pairwise_flatten_groups _ hflat).1
  unfold chunker
  rw [List.pairwise_map]
  refine List.Pairwise.imp_of_mem ?_ hcross
  intro g h hg hh hr
  have hgne : g ≠ [] := chunkerGo_ne_nil cfg _ [] g hg
  have hhne : h ≠ [] := chunkerGo_ne_nil cfg _ [] h hh
  show chunkEnd g ≤ chunkStart h
  exact hr _ (memGetLastD dfltSeg hgne) _ (memHeadD dfltSeg hhne)

lemma joinSp_cons_of_ne (t : String) (l : List String) (h : l ≠ []) :
    joinSp (t :: l) = t ++ " " ++ joinSp l := by
  cases l with
  | nil => exact absurd rfl h
  | cons c cs => rfl

lemma joinSp_append (a b : List String) (ha : a ≠ []) (hb : b ≠ []) :
    joinSp (a ++ b) = joinSp a ++ " " ++ joinSp b := by
  induction a with
  | nil => exact absurd rfl ha
  | cons t ts ih =>
    cases ts with
    | nil =>
      rw [List.singleton_append, joinSp_cons_of_ne t b hb]
      rfl
    | cons c cs =>
      have htsne : (c :: cs : List String) ≠ [] := by simp
      have habne : c :: cs ++ b ≠ [] := by simp
      rw [List.cons_append, joinSp_cons_of_ne t _ habne, ih htsne,
        joinSp_cons_of_ne t _ htsne]
      simp [String.append_assoc]

lemma joinSp_flatten (gs : List (List String)) (h : ∀ g ∈ gs, g ≠ []) :
    joinSp (gs.map joinSp) = joinSp gs.flatten := by
  induction gs with
  | nil => rfl
  | cons g rest ih =>
    cases hrest : rest with
    | nil => simp [joinSp]
    | cons g' rest' =>
      subst hrest
      have hgne : g ≠ [] := h g (by simp)
      have hrne : ∀ x ∈ g' :: rest', x ≠ [] := fun x hx => h x (List.mem_cons_of_mem _ hx)
      have hflatne : (g' :: rest').flatten ≠ [] := by
        intro hc
        exact hrne g' (by simp) ((List.flatten_eq_nil_iff.mp hc) g' (by simp))
      have hmapne : (g' :: rest').map joinSp ≠ [] := by simp
      rw [List.map_cons, joinSp_cons_of_ne _ _ hmapne, ih hrne]
      conv_rhs => rw [List.flatten_cons]
      rw [joinSp_append g _ hgne hflatne]

lemma chunker_text_flatten (cfg : ChunkConfig) (segs : List Segment) :
    joinSp ((chunker cfg segs).map Chunk.text) =
      joinSp ((keepSegs segs).map Segment.text) := by
  have hflat : (chunkerGroups cfg segs).flatten = keepSegs segs := by
    simpa [chunkerGroups, keepSegs] using
      chunkerGo_flatten cfg (segs.filter (fun s => !(isBlank s.text))) []
  have hne : ∀ g ∈ chunkerGroups cfg segs, g ≠ [] :=
    fun g hg => chunkerGo_ne_nil cfg _ [] g hg
  have h1 : (chunker cfg segs).map Chunk.text =
      ((chunkerGroups cfg segs).map (List.map Segment.text)).map joinSp := by
    simp [chunker, List.map_map, mkChunk, groupText]
  rw [h1, joinSp_flatten _ (by
    intro g hg
    rcases List.mem_map.mp hg with ⟨g0, hg0, rfl⟩
    simpa using hne g0 hg0)]
  rw [← List.map_flatten, hflat]

/-- C1: for every ordered, non-overlapping segment sequence, the Chunker
output is a complete, order-preserving, non-overlapping partition of the
segments: flattening the chunk groups gives back exactly the non-blank
segments in order (no segment split, duplicated or dropped except
whitespace-only ones), every group is nonempty, adjacent chunks satisfy
end_sec ≤ start_sec, and joining chunk texts with single spaces reproduces
the joined non-blank segment texts. -/
theorem chunker_is_partition (cfg : ChunkConfig) (segs : List Segment)
    (hord : segs.Pairwise segR) :
    (chunkerGroups cfg segs).flatten = keepSegs segs ∧
    (∀ g ∈ chunkerGroups cfg segs, g ≠ []) ∧
    (chunker cfg segs).Pairwise chunkR ∧
    joinSp ((chunker cfg segs).map Chunk.text) =
      joinSp ((keepSegs segs).map Segment.text) := by
  refine ⟨?_, ?_, chunker_pairwise cfg segs hord, chunker_text_flatten cfg segs⟩
  · simpa [chunkerGroups, keepSegs] using
      chunkerGo_flatten cfg (segs.filter (fun s => !(isBlank s.text))) []
  · exact fun g hg => chunkerGo_ne_nil cfg _ [] g hg

/-- Witness for C1 at a concrete four-segment input (one whitespace-only). -/
theorem chunker_is_partition_witness :
    List.Pairwise segR segsW ∧
    ((chunkerGroups cfgW segsW).flatten = keepSegs segsW ∧
     (∀ g ∈ chunkerGroups cfgW segsW, g ≠ []) ∧
     (chunker cfgW segsW).Pairwise chunkR ∧
     joinSp ((chunker cfgW segsW).map Chunk.text) =
       joinSp ((keepSegs segsW).map Segment.text)) :=
  ⟨by decide, chunker_is_partition cfgW segsW (by decide)⟩

lemma capP_single {cfg : ChunkConfig} {s : Segment} (h : capOk cfg s) :
    capP cfg [s] := by
  obtain ⟨h1, h2⟩ := h
  constructor
  · simp only [chunkDur, chunkEnd, chunkStart]
    simpa using h1
  · simpa [groupText, joinSp] using h2

lemma capP_append {cfg : ChunkConfig} {cur : List Segment} {s : Segment}
    (hc : cur ≠ []) (hex : wouldExceed cfg cur s = false) :
    capP cfg (cur ++ [s]) := by
  have h1 : ¬ (cfg.maxDurSec < s.end_sec - chunkStart cur) := by
    intro h
    simp [wouldExceed, h] at hex
  have h2 : ¬ (cfg.maxChars < (groupText (cur ++ [s])).length) := by
    intro h
    simp [wouldExceed, h] at hex
  constructor
  · have he : chunkEnd (cur ++ [s]) = s.end_sec := by
      simp [chunkEnd, List.getLastD_concat]
    have hs : chunkStart (cur ++ [s]) = chunkStart cur := by
      unfold chunkStart
      rw [headD_append_of_ne [s] dfltSeg hc]
    rw [chunkDur, he, hs]
    omega
  · omega

/-- Every group the chunker emits respects both caps, provided every
individual segment does (caps are soft only for oversize single segments). -/
lemma chunkerGo_caps (cfg : ChunkConfig) :
    ∀ (rest cur : List Segment), (∀ s ∈ rest, capOk cfg s) →
      (cur = [] ∨ capP cfg cur) →
      ∀ g ∈ chunkerGo cfg cur rest, capP cfg g := by
  intro rest
  induction rest with
  | nil =>
    intro cur _ hcur g hg
    by_cases h : cur.isEmpty
    · simp [chunkerGo, h] at hg
    · simp [chunkerGo, h] at hg
      subst hg
      rcases hcur with rfl | hcap
      · simp at h
      · exact hcap
  | cons s rest ih =>
    intro cur hrest hcur g hg
    have hs : capOk cfg s := hrest s (by simp)
    have hrest' : ∀ t ∈ rest, capOk cfg t := fun t ht => hrest t (by simp [ht])
    by_cases h : cur.isEmpty
    · by_cases hcl : closeAfter cfg [s]
      · rw [chunkerGo, if_pos h, if_pos hcl] at hg
        rcases List.mem_cons.mp hg with rfl | hg
        · exact capP_single hs
        · exact ih [] hrest' (Or.inl rfl) g hg
      · rw [chunkerGo, if_pos h, if_neg hcl] at hg
        exact ih [s] hrest' (Or.inr (capP_single hs)) g hg
    · have hc : cur ≠ [] := fun hc => by simp [hc] at h
      have hcap : capP cfg cur := by
        rcases hcur with rfl | hcap
        · exact absurd rfl hc
        · exact hcap
      by_cases hex : wouldExceed cfg cur s
      · by_cases hcl : closeAfter cfg [s]
        · rw [chunkerGo, if_neg h, if_pos hex, if_pos hcl] at hg
          rcases List.mem_cons.mp hg with rfl | hg
          · exact hcap
          rcases List.mem_cons.mp hg with rfl | hg
          · exact capP_single hs
          · exact ih [] hrest' (Or.inl rfl) g hg
        · rw [chunkerGo, if_neg h, if_pos hex, if_neg hcl] at hg
          rcases List.mem_cons.mp hg with rfl | hg
          · exact hcap
          · exact ih [s] hrest' (Or.inr (capP_single hs)) g hg
      · have hex' : wouldExceed cfg cur s = false := by
          simpa using hex
        have hcap' : capP cfg (cur ++ [s]) := capP_append hc hex'
        by_cases hcl : closeAfter cfg (cur ++ [s])
        · rw [chunkerGo, if_neg h, if_neg hex, if_pos hcl] at hg
          rcases List.mem_cons.mp hg with rfl | hg
          · exact hcap'
          · exact ih [] hrest' (Or.inl rfl) g hg
        · rw [chunkerGo, if_neg h, if_neg hex, if_neg hcl] at hg
          exact ih (cur ++ [s]) hrest' (Or.inr hcap') g hg

lemma contig_append {a b : List Segment} (h : contig (a ++ b) = true) :
    contig a = true ∧ contig b = true := by
  induction a with
  | nil => exact ⟨rfl, h⟩
  | cons x xs ih =>
    cases xs with
    | nil =>
      cases b with
      | nil => exact ⟨rfl, rfl⟩
      | cons y ys =>
        simp only [List.singleton_append, contig, Bool.and_eq_true] at h
        exact ⟨rfl, h.2⟩
    | cons x' xs' =>
      simp only [List.cons_append, contig, Bool.and_eq_true] at h ⊢
      have := ih (by simpa [contig, Bool.and_eq_true] using h.2)
      exact ⟨⟨h.1, this.1⟩, this.2⟩

lemma contig_flatten_groups :
    ∀ (groups : List (List Segment)), contig groups.flatten = true →
      ∀ g ∈ groups, contig g = true := by
  intro groups
  induction groups with
  | nil => intro _ g hg; simp at hg
  | cons g gs ih =>
    intro h g' hg'
    rw [List.flatten_cons] at h
    obtain ⟨h1, h2⟩ := contig_append h
    rcases List.mem_cons.mp hg' with rfl | hg'
    · exact h1
    · exact ih h2 g' hg'

/-- On a contiguous nonempty group, the chunk span equals the sum of its
segments' durations. -/
lemma chunkDur_eq_sum {g : List Segment} (hne : g ≠ []) (hc : contig g = true) :
    chunkDur g = (g.map segDur).sum := by
  induction g with
  | nil => exact absurd rfl hne
  | cons x xs ih =>
    cases xs with
    | nil => simp [chunkDur, chunkEnd, chunkStart, segDur]
    | cons y ys =>
      simp only [contig, Bool.and_eq_true, beq_iff_eq] at hc
      have hxs : contig (y :: ys) = true := by
        simpa [contig, Bool.and_eq_true] using hc.2
      have ihv := ih (by simp) hxs
      have hend : chunkEnd (x :: y :: ys) = chunkEnd (y :: ys) := by
        simp only [chunkEnd, List.getLastD_cons]
      rw [chunkDur, hend]
      simp only [chunkDur, chunkStart, List.headD_cons, List.map_cons,
        List.sum_cons, segDur] at ihv ⊢
      have hxy : x.end_sec = y.start_sec := hc.1
      omega

lemma chunker_map_dur (cfg : ChunkConfig) (segs : List Segment) :
    (chunker cfg segs).map (fun c => c.end_sec - c.start_sec) =
      (chunkerGroups cfg segs).map chunkDur := by
  simp [chunker, List.map_map, mkChunk, chunkDur]

lemma chunkerGroups_flatten (cfg : ChunkConfig) (segs : List Segment) :
    (chunkerGroups cfg segs).flatten = keepSegs segs := by
  simpa [chunkerGroups, keepSegs] using
    chunkerGo_flatten cfg (segs.filter (fun s => !(isBlank s.text))) []

/-- With no blanks and continuous speech, total chunk coverage equals total
speech duration. -/
lemma chunker_coverage (cfg : ChunkConfig) (segs : List Segment)
    (hc : contig segs = true) (hnb : ∀ s ∈ segs, isBlank s.text = false) :
    ((chunker cfg segs).map (fun c => c.end_sec - c.start_sec)).sum =
      (segs.map segDur).sum := by
  have hkeep : keepSegs segs = segs := by
    unfold keepSegs
    exact List.filter_eq_self.mpr (fun a ha => by simp [hnb a ha])
  have hflat : (chunkerGroups cfg segs).flatten = segs := by
    rw [chunkerGroups_flatten, hkeep]
  have hcg : ∀ g ∈ chunkerGroups cfg segs, contig g = true :=
    contig_flatten_groups _ (by rw [hflat]; exact hc)
  have hne : ∀ g ∈ chunkerGroups cfg segs, g ≠ [] :=
    fun g hg => chunkerGo_ne_nil cfg _ [] g hg
  rw [chunker_map_dur]
  have h1 : (chunkerGroups cfg segs).map chunkDur =
      (chunkerGroups cfg segs).map (fun g => (g.map segDur).sum) :=
    List.map_congr_left (fun g hg => chunkDur_eq_sum (hne g hg) (hcg g hg))
  rw [h1]
  have h2 : (chunkerGroups cfg segs).map (fun g => (g.map segDur).sum) =
      ((chunkerGroups cfg segs).map (List.map segDur)).map List.sum := by
    rw [List.map_map]
    rfl
  rw [h2, ← List.sum_flatten, ← List.map_flatten, hflat]

lemma postExists_delete {db : VaultDB} {pid q : Nat} (hq : q ≠ pid)
    (h : postExists db q) : postExists (deletePost db pid) q := by
  obtain ⟨p, hp, hpq⟩ := h
  refine ⟨p, List.mem_filter.mpr ⟨hp, ?_⟩, hpq⟩
  simp [hpq, hq]

/-- C4: deleting a Post removes all its rag_chunks, archive_files,
archive_metadata (and archive_rights) rows and nulls out audit-log
references, and referential integrity is preserved: afterwards no child row
references a missing post. -/
theorem delete_post_cascades (db : VaultDB) (pid : Nat) (h : noOrphans db) :
    (∀ f ∈ (deletePost db pid).archive_files, f.post_id ≠ pid) ∧
    (∀ m ∈ (deletePost db pid).archive_metadata, m.post_id ≠ pid) ∧
    (∀ c ∈ (deletePost db pid).rag_chunks, c.post_id ≠ pid) ∧
    (∀ a ∈ (deletePost db pid).audit_log, a.post_id ≠ some pid) ∧
    noOrphans (deletePost db pid) := by
  obtain ⟨hf, hm, hr, hc, ha⟩ := h
  refine ⟨?_, ?_, ?_, ?_, ?_, ?_, ?_, ?_, ?_⟩
  · intro f hmem
    have := (List.mem_filter.mp hmem).2
    simpa using this
  · intro m hmem
    have := (List.mem_filter.mp hmem).2
    simpa using this
  · intro c hmem
    have := (List.mem_filter.mp hmem).2
    simpa using this
  · intro a hmem
    rcases List.mem_map.mp hmem with ⟨a0, _, rfl⟩
    by_cases hp : a0.post_id = some pid
    · simp [hp]
    · simp [hp]
  · intro f hmem
    obtain ⟨hin, hpred⟩ := List.mem_filter.mp hmem
    exact postExists_delete (by simpa using hpred) (hf f hin)
  · intro m hmem
    obtain ⟨hin, hpred⟩ := List.mem_filter.mp hmem
    exact postExists_delete (by simpa using hpred) (hm m hin)
  · intro r hmem
    obtain ⟨hin, hpred⟩ := List.mem_filter.mp hmem
    exact postExists_delete (by simpa using hpred) (hr r hin)
  · intro c hmem
    obtain ⟨hin, hpred⟩ := List.mem_filter.mp hmem
    exact postExists_delete (by simpa using hpred) (hc c hin)
  · intro a hmem
    rcases List.mem_map.mp hmem with ⟨a0, ha0, rfl⟩
    by_cases hp : a0.post_id = some pid
    · intro q hq
      rw [if_pos hp] at hq
      cases hq
    · intro q hq
      rw [if_neg hp] at hq
      have hq' : q ≠ pid := by
        intro rfl0
        exact hp (by rw [hq, rfl0])
      exact postExists_delete hq' (ha a0 ha0 q hq)

/-- Witness for C4 at a concrete two-post database still holding files,
metadata, rights, chunks and audit rows. -/
theorem delete_post_cascades_witness :
    noOrphans dbDelW ∧
    ((∀ f ∈ (deletePost dbDelW 1).archive_files, f.post_id ≠ 1) ∧
     (∀ m ∈ (deletePost dbDelW 1).archive_metadata, m.post_id ≠ 1) ∧
     (∀ c ∈ (deletePost dbDelW 1).rag_chunks, c.post_id ≠ 1) ∧
     (∀ a ∈ (deletePost dbDelW 1).audit_log, a.post_id ≠ some 1) ∧
     noOrphans (deletePost dbDelW 1)) :=
  ⟨by decide, delete_post_cascades dbDelW 1 (by decide)⟩

lemma insertArchiveFile_ok_iff (db : VaultDB) (f : ArchiveFileRow) (db' : VaultDB) :
    insertArchiveFile db f = Except.ok db' ↔
      (allowedRoles.contains f.role = true ∧
       db.archive_files.any (fun g => g.post_id == f.post_id && g.role == f.role) = false ∧
       db.archive_files.any (fun g => g.post_id == f.post_id && g.path == f.path) = false ∧
       db.audio_posts.any (fun p => p.post_id == f.post_id) = true ∧
       db' = { db with archive_files := db.archive_files ++ [f] }) := by
  unfold insertArchiveFile
  cases hc1 : allowedRoles.contains f.role with
  | false => simp [hc1]
  | true =>
    cases hc2 : db.archive_files.any (fun g => g.post_id == f.post_id && g.role == f.role) with
    | true => simp [hc1, hc2]
    | false =>
      cases hc3 : db.archive_files.any (fun g => g.post_id == f.post_id && g.path == f.path) with
      | true => simp [hc1, hc2, hc3]
      | false =>
        cases hc4 : db.audio_posts.any (fun p => p.post_id == f.post_id) with
        | false => simp [hc1, hc2, hc3, hc4]
        | true => simp [hc1, hc2, hc3, hc4, eq_comm]

/-- C5: an INSERT into the archive_files ledger that the schema's constraints
accept preserves the invariant: at most one row per (post, role), and every
role drawn from the closed enum. -/
theorem insert_archive_file_preserves_invariant (db : VaultDB)
    (f : ArchiveFileRow) (db' : VaultDB) (hwf : wfArchive db)
    (hok : insertArchiveFile db f = Except.ok db') : wfArchive db' := by
  obtain ⟨hrole, hdup, _, _, rfl⟩ := (insertArchiveFile_ok_iff db f db').mp hok
  constructor
  · refine List.pairwise_append.mpr ⟨hwf.1, by simp [List.pairwise_cons], ?_⟩
    intro a hain b hbin
    have hb : b = f := by simpa using hbin
    subst hb
    have hfalse := List.any_eq_false.mp hdup a hain
    intro hcon
    exact hfalse (by simp [hcon.1, hcon.2])
  · intro g hg
    rcases List.mem_append.mp hg with hg | hg
    · exact hwf.2 g hg
    · have hgf : g = f := by simpa using hg
      subst hgf
      simpa using hrole

/-- Witness for C5: inserting a transcript_txt row for post 1 into a
well-formed ledger succeeds and the invariant still holds. -/
theorem insert_archive_file_preserves_invariant_witness :
    wfArchive dbDelW ∧ insertArchiveFile dbDelW fileTxtW = Except.ok dbInsW ∧
    wfArchive dbInsW :=
  ⟨by decide, by rfl,
   insert_archive_file_preserves_invariant dbDelW fileTxtW dbInsW (by decide) (by rfl)⟩

/-- C3: the processing status only ever advances uploaded → processing →
ready, or uploaded → processing → failed; it never moves backward (every
non-identity step is one of those advances, and ready is terminal), and the
sole re-entry is failed → processing, triggered only by the explicit
reprocess-request event.  Every status the machine uses is admitted by
chk_audio_status in the schema. -/
theorem status_transitions_forward_only :
    (∀ s e, orchStep s e = s ∨
      (s = PostStatus.uploaded ∧ orchStep s e = PostStatus.processing ∧
        e = OrchEvent.beginRun) ∨
      (s = PostStatus.processing ∧
        (orchStep s e = PostStatus.ready ∨ orchStep s e = PostStatus.failed)) ∨
      (s = PostStatus.failed ∧ orchStep s e = PostStatus.processing ∧
        e = OrchEvent.reprocessRequest)) ∧
    (∀ e, orchStep PostStatus.ready e = PostStatus.ready) ∧
    (∀ e, e ≠ OrchEvent.reprocessRequest → orchStep PostStatus.failed e = PostStatus.failed) ∧
    (∀ s, statusToString s ∈ chkAudioStatus) := by
  decide

/-- C7: an upload whose MIME type and extension are both outside the allowed
audio/video set is rejected with UnsupportedMediaType before any storage
write: the returned database and blob store are exactly the ones passed in,
so no blob object, Post row or ArchiveFile row is created. -/
theorem upload_unsupported_rejected_before_write (db : VaultDB)
    (store : BlobStore) (newPid : Nat) (path : String) (req : UploadReq)
    (h : fileSelectAccepts req.mime req.filename = false) :
    ingestUpload db store newPid path req =
      (Except.error IngestError.unsupportedMediaType, db, store) := by
  simp [ingestUpload, h]

/-- Witness for C7: a .txt upload (text/plain) fails the handleFileSelect
check and is rejected with state untouched. -/
theorem upload_unsupported_rejected_witness :
    fileSelectAccepts reqTxtW.mime reqTxtW.filename = false ∧
    ingestUpload dbW ([] : BlobStore) 5 "5/original_audio" reqTxtW =
      (Except.error IngestError.unsupportedMediaType, dbW, ([] : BlobStore)) :=
  ⟨by decide,
   upload_unsupported_rejected_before_write dbW ([] : BlobStore) 5
     "5/original_audio" reqTxtW (by decide)⟩

lemma digestBytes_inj {a b : List Nat} (h : digestBytes a = digestBytes b) :
    a = b := by
  unfold digestBytes at h
  injection h

/-- C9: if the stored bytes of a ledgered archive file with an
integrity-sensitive role are mutated out-of-band after the digest was
recorded, the integrity-checked read returns IntegrityMismatch to the caller
(and, being a pure read, repairs nothing). -/
theorem integrity_mismatch_on_out_of_band_mutation (db : VaultDB)
    (store : BlobStore) (pid : Nat) (role : String) (f : ArchiveFileRow)
    (orig mutated : List Nat)
    (_hrole : role = "original_audio" ∨ role = "bundle")
    (hfind : db.archive_files.find? (fun g => g.post_id == pid && g.role == role) = some f)
    (hledger : f.sha256 = digestBytes orig)
    (hget : blobGet store f.path = some mutated)
    (hne : mutated ≠ orig) :
    integrityRead db store pid role = Except.error IngestError.integrityMismatch := by
  unfold integrityRead
  rw [hfind]
  dsimp only
  rw [hget]
  dsimp only
  have hbe : (digestBytes mutated == f.sha256) = false := by
    rw [hledger]
    simp only [beq_eq_false_iff_ne, ne_eq]
    intro hc
    exact hne (digestBytes_inj hc)
  simp [hbe]

/-- Witness for C9: post 1's original_audio blob is mutated to [9,9,9] while
the ledger still records the digest of [1,2,3]; the read reports
IntegrityMismatch. -/
theorem integrity_mismatch_witness :
    blobGet store9W fileOrigW.path = some [9, 9, 9] ∧
    ([9, 9, 9] : List Nat) ≠ [1, 2, 3] ∧
    fileOrigW.sha256 = digestBytes [1, 2, 3] ∧
    integrityRead db9W store9W 1 "original_audio" =
      Except.error IngestError.integrityMismatch :=
  ⟨by decide, by decide, rfl,
   integrity_mismatch_on_out_of_band_mutation db9W store9W 1 "original_audio"
     fileOrigW [1, 2, 3] [9, 9, 9] (Or.inl rfl) (by decide) rfl (by decide)
     (by decide)⟩

lemma mem_insLe {α : Type} (le : α → α → Bool) (x a : α) :
    ∀ l : List α, a ∈ insLe le x l ↔ a = x ∨ a ∈ l := by
  intro l
  induction l with
  | nil => simp [insLe]
  | cons y ys ih =>
    by_cases h : le x y
    · simp [insLe, h]
    · simp only [insLe, h, if_false, Bool.false_eq_true, List.mem_cons, ih]
      tauto

lemma mem_sortLe {α : Type} (le : α → α → Bool) (a : α) :
    ∀ l : List α, a ∈ sortLe le l ↔ a ∈ l := by
  intro l
  induction l with
  | nil => simp [sortLe]
  | cons x xs ih => simp [sortLe, mem_insLe, ih]

lemma length_insLe {α : Type} (le : α → α → Bool) (x : α) :
    ∀ l : List α, (insLe le x l).length = l.length + 1 := by
  intro l
  induction l with
  | nil => simp [insLe]
  | cons y ys ih =>
    by_cases h : le x y
    · simp [insLe, h]
    · simp [insLe, h, ih]

lemma length_sortLe {α : Type} (le : α → α → Bool) :
    ∀ l : List α, (sortLe le l).length = l.length := by
  intro l
  induction l with
  | nil => rfl
  | cons x xs ih => simp [sortLe, length_insLe, ih]

/-- Every candidate comes from a chunk row joined to a post of the requested
user. -/
lemma mem_userCandidates {db : VaultDB} {uid : Nat} {r : SearchResult}
    (h : r ∈ userCandidates db uid) :
    r.post.user_id = uid ∧ r.chunk.post_id = r.post.post_id ∧
    r.chunk ∈ db.rag_chunks := by
  rcases List.mem_filterMap.mp h with ⟨c, hc, heq⟩
  cases hfind : db.audio_posts.find? (fun p => p.post_id == c.post_id && p.user_id == uid) with
  | none => rw [hfind] at heq; cases heq
  | some p =>
    rw [hfind] at heq
    cases heq
    have hpred := List.find?_some hfind
    simp only [Bool.and_eq_true, beq_iff_eq] at hpred
    exact ⟨hpred.2, hpred.1.symm, hc⟩

lemma mem_lexRank {q : String} {cands : List SearchResult} {r : SearchResult}
    (h : r ∈ lexRank q cands) :
    ∃ r0 ∈ cands, r.post = r0.post ∧ r.chunk = r0.chunk := by
  unfold lexRank at h
  rw [mem_sortLe] at h
  rcases List.mem_filterMap.mp h with ⟨r0, hr0, heq⟩
  by_cases hn : 0 < lexMatchCount q r0.chunk.text
  · rw [if_pos hn] at heq
    cases heq
    exact ⟨r0, hr0, rfl, rfl⟩
  · rw [if_neg hn] at heq
    cases heq

lemma mem_vecRank {qe : List ℤ} {cands : List SearchResult} {r : SearchResult}
    (h : r ∈ vecRank qe cands) :
    ∃ r0 ∈ cands, r.post = r0.post ∧ r.chunk = r0.chunk := by
  unfold vecRank at h
  rw [mem_sortLe] at h
  rcases List.mem_filterMap.mp h with ⟨r0, hr0, heq⟩
  cases hemb : r0.chunk.embedding with
  | none => rw [hemb] at heq; cases heq
  | some e =>
    rw [hemb] at heq
    cases heq
    exact ⟨r0, hr0, rfl, rfl⟩

/-- C2: every result of a search for a user belongs to a post owned by that
user (result.post.user_id = uid and the chunk links to that post), so no
chunk owned by any other user ever appears in the results. -/
theorem search_scoped_to_user (db : VaultDB) (uid : Nat) (q : String)
    (qe : Option (List ℤ)) (page limit : Nat) (r : SearchResult)
    (h : r ∈ ragSearch db uid q qe page limit) :
    r.post.user_id = uid ∧ r.chunk.post_id = r.post.post_id ∧
    ∀ v : Nat, v ≠ uid → r.post.user_id ≠ v := by
  have hrank : ∃ r0 ∈ userCandidates db uid, r.post = r0.post ∧ r.chunk = r0.chunk := by
    simp only [ragSearch] at h
    have h1 := List.mem_of_mem_drop (List.mem_of_mem_take h)
    cases qe with
    | none =>
      dsimp only at h1
      exact mem_lexRank h1
    | some v =>
      dsimp only at h1
      by_cases hve : (vecRank v (userCandidates db uid)).isEmpty
      · rw [if_pos hve] at h1
        exact mem_lexRank h1
      · rw [if_neg hve] at h1
        exact mem_vecRank h1
  rcases hrank with ⟨r0, hr0, hpost, hchunk⟩
  obtain ⟨huid, hlink, _⟩ := mem_userCandidates hr0
  refine ⟨by rw [hpost]; exact huid, by rw [hpost, hchunk]; exact hlink, ?_⟩
  intro v hv hcon
  rw [hpost, huid] at hcon
  exact hv hcon.symm

/-- Witness for C2: a concrete search by user 7 returns a result, and it is
scoped to user 7. -/
theorem search_scoped_to_user_witness :
    resultW ∈ ragSearch dbW 7 "hello" none 1 10 ∧
    (resultW.post.user_id = 7 ∧ resultW.chunk.post_id = resultW.post.post_id ∧
     ∀ v : Nat, v ≠ 7 → resultW.post.user_id ≠ v) :=
  ⟨by decide, search_scoped_to_user dbW 7 "hello" none 1 10 resultW (by decide)⟩

/-- C10 (as amended): for a contiguous, non-blank segment run in which every
individual segment respects both caps, every produced chunk has duration at
most the configured maximum and text length at most the configured character
cap, and the chunks' summed time coverage equals the total speech duration. -/
theorem chunker_caps_and_coverage (cfg : ChunkConfig) (segs : List Segment)
    (hc : contig segs = true)
    (hnb : ∀ s ∈ segs, isBlank s.text = false)
    (hcaps : ∀ s ∈ segs, capOk cfg s) :
    (∀ c ∈ chunker cfg segs,
      c.end_sec - c.start_sec ≤ cfg.maxDurSec ∧ c.text.length ≤ cfg.maxChars) ∧
    ((chunker cfg segs).map (fun c => c.end_sec - c.start_sec)).sum =
      (segs.map segDur).sum := by
  constructor
  · intro c hcm
    unfold chunker at hcm
    rcases List.mem_map.mp hcm with ⟨g, hg, rfl⟩
    unfold chunkerGroups at hg
    have hrest : ∀ s ∈ segs.filter (fun s => !(isBlank s.text)), capOk cfg s :=
      fun s hs => hcaps s (List.mem_of_mem_filter hs)
    have hcap := chunkerGo_caps cfg (segs.filter (fun s => !(isBlank s.text)))
      [] hrest (Or.inl rfl) g hg
    obtain ⟨h1, h2⟩ := hcap
    unfold chunkDur at h1
    exact ⟨h1, h2⟩
  · exact chunker_coverage cfg segs hc hnb

/-- C10 counterexample as stated: a single continuously spoken (contiguous,
non-blank) 40-second, 40-character segment under a 30 s / 20-char
configuration produces a chunk exceeding both caps: caps are soft for a
single oversize segment (spec 4.3 edge case). -/
theorem chunker_caps_counterexample :
    contig [segX] = true ∧ isBlank segX.text = false ∧
    (∃ c ∈ chunker cfgX [segX],
      cfgX.maxDurSec < c.end_sec - c.start_sec ∧
      cfgX.maxChars < c.text.length) := by
  decide

/-- Witness for the amended C10 at a concrete contiguous three-segment run. -/
theorem chunker_caps_and_coverage_witness :
    (contig segsC = true ∧ (∀ s ∈ segsC, isBlank s.text = false) ∧
     (∀ s ∈ segsC, capOk cfgW s)) ∧
    ((∀ c ∈ chunker cfgW segsC,
       c.end_sec - c.start_sec ≤ cfgW.maxDurSec ∧ c.text.length ≤ cfgW.maxChars) ∧
     ((chunker cfgW segsC).map (fun c => c.end_sec - c.start_sec)).sum =
       (segsC.map segDur).sum) :=
  ⟨⟨by decide, by decide, by decide⟩,
   chunker_caps_and_coverage cfgW segsC (by decide) (by decide) (by decide)⟩

/-- A nonempty, ordered group of valid segments yields a chunk with
0 ≤ start_sec < end_sec. -/
lemma group_wf {g : List Segment} (hne : g ≠ []) (hpw : g.Pairwise segR)
    (hval : ∀ s ∈ g, 0 ≤ s.start_sec ∧ s.start_sec < s.end_sec) :
    0 ≤ chunkStart g ∧ chunkStart g < chunkEnd g := by
  cases g with
  | nil => exact absurd rfl hne
  | cons x xs =>
    have hx := hval x (by simp)
    refine ⟨by simpa [chunkStart] using hx.1, ?_⟩
    cases xs with
    | nil => simpa [chunkStart, chunkEnd] using hx.2
    | cons y ys =>
      have hlast_mem : (y :: ys).getLastD x ∈ y :: ys := memGetLastD x (by simp)
      have hlast := hval _ (List.mem_cons_of_mem x hlast_mem)
      have hordx : segR x ((y :: ys).getLastD x) :=
        (List.pairwise_cons.mp hpw).1 _ hlast_mem
      have hordx' : x.end_sec ≤ ((y :: ys).getLastD x).start_sec := hordx
      have hEnd : chunkEnd (x :: y :: ys) = ((y :: ys).getLastD x).end_sec := by
        simp only [chunkEnd, List.getLastD_cons]
      have hStart : chunkStart (x :: y :: ys) = x.start_sec := rfl
      rw [hStart, hEnd]
      have := hx.2
      have := hlast.2
      omega

/-- Every chunk the Chunker produces from ordered valid segments satisfies
0 ≤ start_sec < end_sec. -/
lemma chunker_wf (cfg : ChunkConfig) (segs : List Segment)
    (hord : segs.Pairwise segR)
    (hval : ∀ s ∈ segs, 0 ≤ s.start_sec ∧ s.start_sec < s.end_sec) :
    ∀ c ∈ chunker cfg segs, 0 ≤ c.start_sec ∧ c.start_sec < c.end_sec := by
  intro c hcm
  unfold chunker at hcm
  rcases List.mem_map.mp hcm with ⟨g, hg, rfl⟩
  have hne : g ≠ [] := chunkerGo_ne_nil cfg _ [] g hg
  have hkeep : (keepSegs segs).Pairwise segR :=
    List.Pairwise.sublist (List.filter_sublist segs) hord
  have hflat : (chunkerGroups cfg segs).flatten.Pairwise segR := by
    rw [chunkerGroups_flatten]
    exact hkeep
  have hgpw : g.Pairwise segR := (pairwise_flatten_groups _ hflat).2 g hg
  have hgval : ∀ s ∈ g, 0 ≤ s.start_sec ∧ s.start_sec < s.end_sec := by
    intro s hs
    have hsk : s ∈ keepSegs segs := by
      rw [← chunkerGroups_flatten cfg segs]
      exact List.mem_flatten.mpr ⟨g, hg, hs⟩
    exact hval s (List.mem_of_mem_filter hsk)
  simpa [mkChunk] using group_wf hne hgpw hgval

lemma mkRows_fields (pid : Nat) :
    ∀ (scs : List (Chunk × Option (List ℤ))) (n : Nat) (r : RagChunkRow),
      r ∈ mkRows pid n scs →
      r.post_id = pid ∧ ∃ ce ∈ scs, r.start_sec = ce.1.start_sec ∧
        r.end_sec = ce.1.end_sec ∧ r.text = ce.1.text ∧ r.embedding = ce.2 := by
  intro scs
  induction scs with
  | nil =>
    intro n r hr
    simp [mkRows] at hr
  | cons ce rest ih =>
    intro n r hr
    obtain ⟨c, e⟩ := ce
    rw [mkRows] at hr
    rcases List.mem_cons.mp hr with rfl | hr
    · exact ⟨rfl, (c, e), by simp, rfl, rfl, rfl, rfl⟩
    · obtain ⟨hpid, ce', hce', hfields⟩ := ih (n + 1) r hr
      exact ⟨hpid, ce', List.mem_cons_of_mem _ hce', hfields⟩

lemma mkRows_pairwise (pid : Nat) :
    ∀ (scs : List (Chunk × Option (List ℤ))) (n : Nat),
      scs.Pairwise (fun a b => a.1.end_sec ≤ b.1.start_sec) →
      (mkRows pid n scs).Pairwise rowR := by
  intro scs
  induction scs with
  | nil => intro n _; simp [mkRows]
  | cons ce rest ih =>
    intro n hpw
    obtain ⟨c, e⟩ := ce
    obtain ⟨hhead, htail⟩ := List.pairwise_cons.mp hpw
    rw [mkRows]
    refine List.pairwise_cons.mpr ⟨?_, ih (n + 1) htail⟩
    intro r hr
    obtain ⟨_, ce', hce', hst, _⟩ := mkRows_fields pid rest (n + 1) r hr
    show (⟨n, pid, c.start_sec, c.end_sec, c.text, none, e, 0⟩ : RagChunkRow).end_sec ≤ r.start_sec
    rw [hst]
    exact hhead ce' hce'

lemma mkRows_length (pid : Nat) :
    ∀ (scs : List (Chunk × Option (List ℤ))) (n : Nat),
      (mkRows pid n scs).length = scs.length := by
  intro scs
  induction scs with
  | nil => intro n; rfl
  | cons ce rest ih =>
    intro n
    obtain ⟨c, e⟩ := ce
    rw [mkRows]
    simp [ih (n + 1)]

lemma embedStage_pairwise {embedder : String → Except Unit (List ℤ)}
    {cs : List Chunk} (h : cs.Pairwise chunkR) :
    (embedStage embedder cs).Pairwise (fun a b => a.1.end_sec ≤ b.1.start_sec) := by
  unfold embedStage
  rw [List.pairwise_map]
  exact h

lemma storeRun_chunksOf_self (db : VaultDB) (pid : Nat)
    (scs : List (Chunk × Option (List ℤ))) :
    chunksOf (storeRun db pid scs) pid = mkRows pid 0 scs := by
  unfold chunksOf storeRun
  rw [List.filter_append, List.filter_filter]
  have h1 : (db.rag_chunks.filter
      (fun a => (a.post_id == pid) && !(a.post_id == pid))) = [] := by
    rw [List.filter_congr (q := fun _ => false) ?_, List.filter_false]
    intro a _
    cases h : a.post_id == pid <;> simp [h]
  have h2 : ((mkRows pid 0 scs).filter (fun c => c.post_id == pid)) =
      mkRows pid 0 scs := by
    rw [List.filter_eq_self]
    intro r hr
    have := (mkRows_fields pid scs 0 r hr).1
    simp [this]
  rw [h1, h2, List.nil_append]

lemma storeRun_chunksOf_other (db : VaultDB) (pid : Nat)
    (scs : List (Chunk × Option (List ℤ))) (pid' : Nat) (h : pid' ≠ pid) :
    chunksOf (storeRun db pid scs) pid' = chunksOf db pid' := by
  unfold chunksOf storeRun
  rw [List.filter_append, List.filter_filter]
  have h1 : (db.rag_chunks.filter
      (fun a => (a.post_id == pid') && !(a.post_id == pid))) =
      db.rag_chunks.filter (fun c => c.post_id == pid') := by
    refine List.filter_congr ?_
    intro a _
    by_cases ha : a.post_id = pid'
    · simp [ha, h]
    · simp [ha]
  have h2 : ((mkRows pid 0 scs).filter (fun c => c.post_id == pid')) = [] := by
    rw [List.filter_eq_nil_iff]
    intro r hr
    have := (mkRows_fields pid scs 0 r hr).1
    simp [this, Ne.symm h]
  rw [h1, h2, List.append_nil]

/-- C6: chunks produced from ordered valid segments satisfy
0 ≤ start_sec < end_sec and are non-overlapping with monotone timestamps,
and persisting a pipeline run's chunks preserves the per-post invariant for
the whole rag_chunks table. -/
theorem chunk_rows_invariant (cfg : ChunkConfig) (segs : List Segment)
    (db : VaultDB) (pid : Nat) (embedder : String → Except Unit (List ℤ))
    (hord : segs.Pairwise segR)
    (hval : ∀ s ∈ segs, 0 ≤ s.start_sec ∧ s.start_sec < s.end_sec)
    (hwf : wfChunkDB db) :
    (∀ c ∈ chunker cfg segs, 0 ≤ c.start_sec ∧ c.start_sec < c.end_sec) ∧
    (chunker cfg segs).Pairwise chunkR ∧
    wfChunkDB (storeRun db pid (embedStage embedder (chunker cfg segs))) := by
  have hcwf := chunker_wf cfg segs hord hval
  have hcpw := chunker_pairwise cfg segs hord
  refine ⟨hcwf, hcpw, ?_⟩
  intro pid' hmem'
  by_cases hps : pid' = pid
  · subst hps
    rw [storeRun_chunksOf_self]
    constructor
    · exact mkRows_pairwise pid' _ 0 (embedStage_pairwise hcpw)
    · intro r hr
      obtain ⟨_, ce, hce, hst, hen, _, _⟩ :=
        mkRows_fields pid' (embedStage embedder (chunker cfg segs)) 0 r hr
      have hce' : ce.1 ∈ chunker cfg segs := by
        rcases List.mem_map.mp (by simpa [embedStage] using hce) with ⟨c0, hc0, heq⟩
        rw [← heq]
        exact hc0
      have := hcwf ce.1 hce'
      rw [hst, hen]
      exact this
  · rw [storeRun_chunksOf_other db pid _ pid' hps]
    have hmem : pid' ∈ db.rag_chunks.map (fun c => c.post_id) := by
      rcases List.mem_map.mp hmem' with ⟨c, hcin, hcp⟩
      have hcin' : c ∈ db.rag_chunks.filter (fun c => !(c.post_id == pid)) ++
          mkRows pid 0 (embedStage embedder (chunker cfg segs)) := by
        simpa [storeRun] using hcin
      rcases List.mem_append.mp hcin' with hcold | hcnew
      · exact List.mem_map.mpr ⟨c, List.mem_of_mem_filter hcold, hcp⟩
      · have h1 := (mkRows_fields pid _ 0 c hcnew).1
        have : pid' = pid := by rw [← hcp, h1]
        exact absurd this hps
    exact hwf pid' hmem

/-- Witness for C6 at a concrete run for post 1 over a database already
holding a well-formed chunk. -/
theorem chunk_rows_invariant_witness :
    (List.Pairwise segR segsC ∧
     (∀ s ∈ segsC, 0 ≤ s.start_sec ∧ s.start_sec < s.end_sec) ∧
     wfChunkDB dbW) ∧
    ((∀ c ∈ chunker cfgW segsC, 0 ≤ c.start_sec ∧ c.start_sec < c.end_sec) ∧
     (chunker cfgW segsC).Pairwise chunkR ∧
     wfChunkDB (storeRun dbW 1 (embedStage embFailW (chunker cfgW segsC)))) :=
  ⟨⟨by decide, by decide, by decide⟩,
   chunk_rows_invariant cfgW segsC dbW 1 embFailW (by decide) (by decide)
     (by decide)⟩

lemma mkRows_exists (pid : Nat) :
    ∀ (scs : List (Chunk × Option (List ℤ))) (n : Nat)
      (ce : Chunk × Option (List ℤ)), ce ∈ scs →
      ∃ r ∈ mkRows pid n scs, r.post_id = pid ∧ r.start_sec = ce.1.start_sec ∧
        r.end_sec = ce.1.end_sec ∧ r.text = ce.1.text ∧ r.embedding = ce.2 := by
  intro scs
  induction scs with
  | nil =>
    intro n ce hce
    simp at hce
  | cons ce0 rest ih =>
    intro n ce hce
    obtain ⟨c, e⟩ := ce0
    rcases List.mem_cons.mp hce with rfl | hce
    · exact ⟨⟨n, pid, c.start_sec, c.end_sec, c.text, none, e, 0⟩,
        by rw [mkRows]; exact List.mem_cons_self _ _, rfl, rfl, rfl, rfl, rfl⟩
    · obtain ⟨r, hr, hfields⟩ := ih (n + 1) ce hce
      exact ⟨r, by rw [mkRows]; exact List.mem_cons_of_mem _ hr, hfields⟩

lemma lexRank_mem_of {q : String} {cands : List SearchResult}
    {r0 : SearchResult} (hr0 : r0 ∈ cands)
    (hn : 0 < lexMatchCount q r0.chunk.text) :
    { r0 with score := (lexMatchCount q r0.chunk.text : ℤ) } ∈ lexRank q cands := by
  unfold lexRank
  rw [mem_sortLe]
  exact List.mem_filterMap.mpr ⟨r0, hr0, by rw [if_pos hn]⟩

lemma vecRank_nil_of_unembedded (qe : List ℤ) (cands : List SearchResult)
    (h : ∀ r ∈ cands, r.chunk.embedding = none) : vecRank qe cands = [] := by
  unfold vecRank
  have hnil : cands.filterMap
      (fun r => r.chunk.embedding.map fun e => { r with score := dotZ qe e }) = [] :=
    List.filterMap_eq_nil_iff.mpr (fun r hr => by rw [h r hr]; rfl)
  rw [hnil]
  rfl

lemma length_lexRank_le (q : String) (cands : List SearchResult) :
    (lexRank q cands).length ≤ cands.length := by
  unfold lexRank
  rw [length_sortLe]
  exact List.length_filterMap_le _ _

lemma userCandidates_mem_of {db : VaultDB} {uid : Nat} {c : RagChunkRow}
    {p : AudioPost} (hc : c ∈ db.rag_chunks)
    (hfind : db.audio_posts.find?
      (fun p' => p'.post_id == c.post_id && p'.user_id == uid) = some p) :
    (⟨c, p, 0⟩ : SearchResult) ∈ userCandidates db uid :=
  List.mem_filterMap.mpr ⟨c, hc, by rw [hfind]⟩

/-- When no candidate carries an embedding, page 1 with a sufficient limit
returns exactly the lexical ranking. -/
lemma ragSearch_page1_all (db : VaultDB) (uid : Nat) (q : String)
    (qe : Option (List ℤ)) (limit : Nat)
    (hunemb : ∀ r ∈ userCandidates db uid, r.chunk.embedding = none)
    (hlen : (lexRank q (userCandidates db uid)).length ≤ limit) :
    ragSearch db uid q qe 1 limit = lexRank q (userCandidates db uid) := by
  simp only [ragSearch]
  have hmatch : (match qe with
      | some v =>
        let vr := vecRank v (userCandidates db uid)
        if vr.isEmpty then lexRank q (userCandidates db uid) else vr
      | none => lexRank q (userCandidates db uid)) =
      lexRank q (userCandidates db uid) := by
    cases qe with
    | none => rfl
    | some v =>
      dsimp only
      rw [vecRank_nil_of_unembedded v _ hunemb]
      rfl
  rw [hmatch]
  have h0 : (1 - 1) * limit = 0 := by simp
  rw [h0, List.drop_zero, List.take_of_length_le hlen]

/-- C8: when the embedding service fails for every chunk, the run still
completes: the post reaches status ready, every persisted chunk row carries
no embedding, and a search for a term occurring in the transcript still
returns the post through the lexical fallback (whether or not the query
itself embedded). -/
theorem embedding_failure_degrades_gracefully (cfg : ChunkConfig)
    (db : VaultDB) (embedder : String → Except Unit (List ℤ))
    (segs : List Segment) (pid uid : Nat) (p : AudioPost) (q : String)
    (qe : Option (List ℤ)) (limit : Nat)
    (hemb : ∀ t, embedder t = Except.error ())
    (hpost : p ∈ db.audio_posts) (hpid : p.post_id = pid)
    (huid : p.user_id = uid)
    (hnoemb : ∀ c ∈ db.rag_chunks, c.embedding = none)
    (hmatch : ∃ c ∈ chunker cfg segs, 0 < lexMatchCount q c.text)
    (hlimit : db.rag_chunks.length + (chunker cfg segs).length ≤ limit) :
    (∀ p' ∈ (storeRun db pid (embedStage embedder (chunker cfg segs))).audio_posts,
       p'.post_id = pid → p'.status = "ready") ∧
    (∀ c ∈ (storeRun db pid (embedStage embedder (chunker cfg segs))).rag_chunks,
       c.embedding = none) ∧
    (∃ r ∈ ragSearch (storeRun db pid (embedStage embedder (chunker cfg segs)))
        uid q qe 1 limit, r.post.post_id = pid ∧ r.post.user_id = uid) := by
  have hnoemb' : ∀ c ∈ (storeRun db pid (embedStage embedder (chunker cfg segs))).rag_chunks,
      c.embedding = none := by
    intro c hcin
    have hcin' : c ∈ db.rag_chunks.filter (fun c => !(c.post_id == pid)) ++
        mkRows pid 0 (embedStage embedder (chunker cfg segs)) := by
      simpa [storeRun] using hcin
    rcases List.mem_append.mp hcin' with hcold | hcnew
    · exact hnoemb c (List.mem_of_mem_filter hcold)
    · obtain ⟨_, ce, hce, _, _, _, hcemb⟩ :=
        mkRows_fields pid _ 0 c hcnew
      rcases List.mem_map.mp (by simpa [embedStage] using hce) with ⟨c0, _, heq⟩
      rw [hcemb, ← heq]
      rw [hemb c0.text]
      rfl
  refine ⟨?_, hnoemb', ?_⟩
  · intro p' hp' hpidp'
    have hp'' : p' ∈ db.audio_posts.map (fun p0 =>
        if p0.post_id == pid then { p0 with status := "ready" } else p0) := by
      simpa [storeRun] using hp'
    rcases List.mem_map.mp hp'' with ⟨p0, _, heq⟩
    by_cases hb : p0.post_id = pid
    · rw [← heq, if_pos (by simp [hb])]
    · exfalso
      rw [← heq, if_neg (by simp [hb])] at hpidp'
      exact hb hpidp'
  · obtain ⟨c0, hc0, hn⟩ := hmatch
    have hce0 : (c0, (embedder c0.text).toOption) ∈
        embedStage embedder (chunker cfg segs) :=
      List.mem_map.mpr ⟨c0, hc0, rfl⟩
    obtain ⟨rc, hrc, hrcpid, _, _, hrctext, _⟩ :=
      mkRows_exists pid _ 0 _ hce0
    have hrcin : rc ∈ (storeRun db pid (embedStage embedder (chunker cfg segs))).rag_chunks := by
      simp only [storeRun]
      exact List.mem_append.mpr (Or.inr hrc)
    have hppost : ({ p with status := "ready" } : AudioPost) ∈
        (storeRun db pid (embedStage embedder (chunker cfg segs))).audio_posts := by
      simp only [storeRun]
      exact List.mem_map.mpr ⟨p, hpost, by rw [if_pos (by simp [hpid])]⟩
    have hsome : ((storeRun db pid (embedStage embedder (chunker cfg segs))).audio_posts.find?
        (fun p' => p'.post_id == rc.post_id && p'.user_id == uid)).isSome := by
      rw [List.find?_isSome]
      refine ⟨{ p with status := "ready" }, hppost, ?_⟩
      simp [hpid, huid, hrcpid]
    obtain ⟨pfound, hfind⟩ := Option.isSome_iff_exists.mp hsome
    have hpredf := List.find?_some hfind
    simp only [Bool.and_eq_true, beq_iff_eq] at hpredf
    have hcand : (⟨rc, pfound, 0⟩ : SearchResult) ∈
        userCandidates (storeRun db pid (embedStage embedder (chunker cfg segs))) uid :=
      userCandidates_mem_of hrcin hfind
    have hn' : 0 < lexMatchCount q (⟨rc, pfound, 0⟩ : SearchResult).chunk.text := by
      simpa [hrctext] using hn
    have hinlex := lexRank_mem_of hcand hn'
    have hcand_unemb : ∀ r ∈ userCandidates
        (storeRun db pid (embedStage embedder (chunker cfg segs))) uid,
        r.chunk.embedding = none :=
      fun r hr => hnoemb' r.chunk (mem_userCandidates hr).2.2
    have hlen : (lexRank q (userCandidates
        (storeRun db pid (embedStage embedder (chunker cfg segs))) uid)).length ≤ limit := by
      have h1 := length_lexRank_le q (userCandidates
        (storeRun db pid (embedStage embedder (chunker cfg segs))) uid)
      have h2 : (userCandidates (storeRun db pid (embedStage embedder (chunker cfg segs))) uid).length ≤
          (storeRun db pid (embedStage embedder (chunker cfg segs))).rag_chunks.length :=
        List.length_filterMap_le _ _
      have h3 : (storeRun db pid (embedStage embedder (chunker cfg segs))).rag_chunks.length ≤
          db.rag_chunks.length + (chunker cfg segs).length := by
        have h4 := List.length_filter_le (fun c => !(c.post_id == pid)) db.rag_chunks
        have h5 : (mkRows pid 0 (embedStage embedder (chunker cfg segs))).length =
            (chunker cfg segs).length := by
          rw [mkRows_length]
          simp [embedStage]
        simp only [storeRun, List.length_append, h5]
        omega
      omega
    rw [ragSearch_page1_all _ uid q qe limit hcand_unemb hlen]
    refine ⟨_, hinlex, ?_, ?_⟩
    · show pfound.post_id = pid
      rw [hpredf.1, hrcpid]
    · exact hpredf.2

/-- Witness for C8: a run over db8W with an always-failing embedder reaches
ready, stores unembedded chunks, and the post is found by the lexical
fallback for the query "tail" even though the query embedded. -/
theorem embedding_failure_degrades_gracefully_witness :
    ((∀ t, embFailW t = Except.error ()) ∧
     (∃ c ∈ chunker cfgW segsC, 0 < lexMatchCount "tail" c.text)) ∧
    ((∀ p' ∈ (storeRun db8W 1 (embedStage embFailW (chunker cfgW segsC))).audio_posts,
        p'.post_id = 1 → p'.status = "ready") ∧
     (∀ c ∈ (storeRun db8W 1 (embedStage embFailW (chunker cfgW segsC))).rag_chunks,
        c.embedding = none) ∧
     (∃ r ∈ ragSearch (storeRun db8W 1 (embedStage embFailW (chunker cfgW segsC)))
         7 "tail" (some [1, 2]) 1 10, r.post.post_id = 1 ∧ r.post.user_id = 7)) :=
  ⟨⟨fun _ => rfl, by decide⟩,
   embedding_failure_degrades_gracefully cfgW db8W embFailW segsC 1 7 post8W
     "tail" (some [1, 2]) 10 (fun _ => rfl) (by decide) rfl rfl (by decide)
     (by decide) (by decide)⟩

end VoiceVault
